import Mathlib

/-!
# Verification of the superfs directory engine (src/libs/dir.js, src/unnamed/part_000)

Shallow embedding of the `SuperFSDir` class and the standalone recursive
`mkdir` helper.  Filesystem trees are modelled as an inductive type whose
directory-listing order is the order of the `children` list.  Absolute paths
are lists of path components (rendered to strings with a leading `/` when a
pattern matcher tests them, mirroring the string paths of the source).
Matchers (`FSTools.createFileMatch` results) are modelled as boolean
predicates on strings, which is the only interface the engine uses
(`matcher.test(string)`).
-/

namespace SuperFS

/-- A filesystem subtree: either a regular file with its content, or a
directory with an ordered list of children (the order `fs.readdir` would
report). -/
inductive FSNode where
  | file (name : String) (content : String)
  | dir (name : String) (children : List FSNode)

/-- The bare name of a node, as `fs.readdir` lists it. -/
def FSNode.name : FSNode → String
  | .file n _ => n
  | .dir n _ => n

/-- One result entry of `read`: the fields of a `SuperFSDir`/`SuperFSFile`
object that the engine's claims observe.  `path` is the absolute path as
components; `relative` is the string stamped during traversal (absent for
entries materialized outside a traversal, e.g. the `addParent` root). -/
structure Entry where
  path : List String
  name : String
  isDir : Bool
  relative : Option String
  content : String
deriving DecidableEq, Repr

/-- Renders a component path to the absolute string path the source works
with (`'/' + components joined by '/'`). -/
def renderPath (p : List String) : String :=
  "/" ++ String.intercalate "/" p

/-- Embeds `path.basename` on a component path. -/
def basename (p : List String) : String :=
  (p.getLast?).getD ""

/-- The options record of `SuperFSDir.read` (dir.js lines 52-61); `encoding`
is omitted because it only selects the text decoding of file contents. -/
structure ReadOpts where
  recursive : Bool
  relativePath : String
  skipFiles : Bool
  skipDirs : Bool
  addParent : Bool
  filter : Option (String → Bool)
  ignore : Option (String → Bool)

/-- The defaults merged in at dir.js lines 52-61. -/
def defaultReadOpts : ReadOpts :=
  ⟨false, "", false, false, false, none, none⟩

/-- Embeds `opts.relativePath ? relativePath + '/' + name : name` (dir.js lines
95, 102, 129; JS empty string is falsy). -/
def mkRelative (relativePath nm : String) : String :=
  if relativePath = "" then nm else relativePath ++ "/" ++ nm

/-- The first-pass ignore filter over the raw `readdir` name list, verbatim
from dir.js lines 77-85: when an ignore matcher is present, a raw name is
kept exactly when the matcher *matches* it. -/
def ignoreFirstPass : Option (String → Bool) → List String → List String
  | none, rawFiles => rawFiles
  | some test, rawFiles =>
      rawFiles.filter (fun file => if test file then true else false)

/-- The per-name form of the first pass: whether one raw name survives
dir.js lines 77-85. -/
def keepByIgnore : Option (String → Bool) → String → Bool
  | none, _ => true
  | some test, nm => if test nm then true else false

/-- The second-pass ignore filter on the results of a recursive sub-read
(dir.js lines 107-113): a sub-entry is dropped when the ignore matcher
matches its full path — the opposite polarity to the first pass. -/
def secondPass : Option (String → Bool) → List Entry → List Entry
  | none, subs => subs
  | some test, subs => subs.filter (fun s => !test (renderPath s.path))

/-- The directory inclusion test of dir.js line 96:
`!fileFilter || (fileFilter && fileFilter.test(dir.relative))`. -/
def dirFilterOk : Option (String → Bool) → String → Bool
  | none, _ => true
  | some test, rel => test rel

/-- The file skip test of dir.js line 120:
`fileFilter && !fileFilter.test(filepath)` — note it receives the full
joined path, not the relative path. -/
def fileFilterSkip : Option (String → Bool) → String → Bool
  | none, _ => false
  | some test, p => !test p

/-- The options passed to the recursive sub-read (dir.js lines 101-105):
same options with an extended `relativePath` and `addParent` forced off. -/
def subOpts (opts : ReadOpts) (nm : String) : ReadOpts :=
  { opts with relativePath := mkRelative opts.relativePath nm, addParent := false }

mutual

/-- Processing of one raw child that survived the first-pass ignore filter:
the body of the `for` loop of dir.js lines 87-132, minus the first-pass
guard.  Files: dir.js lines 115-131; directories: lines 91-114. -/
def processChild (base : List String) (opts : ReadOpts) : FSNode → List Entry
  | .file nm content =>
      if opts.skipFiles then []
      else if fileFilterSkip opts.filter (renderPath (base ++ [nm])) then []
      else [⟨base ++ [nm], nm, false, some (mkRelative opts.relativePath nm), content⟩]
  | .dir nm kids =>
      (if !opts.skipDirs && dirFilterOk opts.filter (mkRelative opts.relativePath nm) then
        [⟨base ++ [nm], nm, true, some (mkRelative opts.relativePath nm), ""⟩]
      else []) ++
      (if opts.recursive then
        secondPass opts.ignore (readChildren (base ++ [nm]) (subOpts opts nm) kids)
      else [])

/-- The loop of dir.js lines 87-132 over the raw listing, with the
first-pass ignore filter of lines 77-85 applied per name (equivalent to
filtering the raw name list up front; the equivalence is proved below). -/
def readChildren (base : List String) (opts : ReadOpts) : List FSNode → List Entry
  | [] => []
  | c :: cs =>
      (if keepByIgnore opts.ignore c.name then processChild base opts c else []) ++
      readChildren base opts cs

end

/-- The entry pushed for `addParent` (dir.js lines 67-69): the engine's own
directory, materialized by `create()`; its `relative` was never assigned. -/
def parentEntry (base : List String) : Entry :=
  ⟨base, basename base, true, none, ""⟩

/-- Embeds `SuperFSDir.read` (dir.js lines 51-136) on a directory whose absolute
path is `base` and whose listing is `kids`. -/
def read (base : List String) (kids : List FSNode) (opts : ReadOpts) : List Entry :=
  (if opts.addParent then [parentEntry base] else []) ++ readChildren base opts kids

/-! ## Tree well-formedness

A real directory listing has pairwise-distinct, nonempty names.  These
boolean predicates state that for every level of a tree. -/

/-- Pairwise distinctness of a name list. -/
def namesDistinct : List String → Bool
  | [] => true
  | n :: ns => !ns.contains n && namesDistinct ns

mutual

/-- The node's name is nonempty, and (for directories) the listing below it
is well formed. -/
def nodeWf : FSNode → Bool
  | .file nm _ => !(nm == "")
  | .dir nm kids => !(nm == "") && childrenWf kids && namesDistinct (kids.map FSNode.name)

/-- Every node of the listing is well formed. -/
def childrenWf : List FSNode → Bool
  | [] => true
  | c :: cs => nodeWf c && childrenWf cs

end

/-! ## Specification-side description of a full recursive listing -/

/-- All nodes of a tree below `base`, depth first in listing order, as
(absolute path, is-directory) pairs: the set of results the spec promises
for `read({recursive: true})`. -/
def allNodes (base : List String) : List FSNode → List (List String × Bool)
  | [] => []
  | FSNode.file nm _ :: cs => (base ++ [nm], false) :: allNodes base cs
  | FSNode.dir nm kids :: cs =>
      (base ++ [nm], true) :: (allNodes (base ++ [nm]) kids ++ allNodes base cs)

/-- The observation of an entry that `allNodes` describes. -/
def entryKey (e : Entry) : List String × Bool :=
  (e.path, e.isDir)

/-- Path components joined by `'/'` — the spec's reading of a `relative`
path "equal to its path joined by `/` components from the root". -/
def joinSlash : List String → String
  | [] => ""
  | [c] => c
  | c :: cs => c ++ "/" ++ joinSlash cs

/-- Folding `mkRelative` along a component list: the relative string an
entry accumulates during recursive descent. -/
def relJoin (acc : String) (comps : List String) : String :=
  comps.foldl mkRelative acc

/-- The options of the internal full recursive `read` (used by `copy`,
`delete`), generalized over the `relativePath` threaded through recursion. -/
def plainOpts (rp : String) : ReadOpts :=
  ⟨true, rp, false, false, false, none, none⟩

/-! ## `delete` (dir.js lines 208-252) -/

/-- The sort comparator of dir.js line 214: `(a, b) => a.isDir ? 1 : -1`. -/
def deleteCompare (a _b : Entry) : Int :=
  if a.isDir then 1 else -1

/-- Insertion of one element into a sorted prefix under a boolean
"goes-before" test — the model of one step of the runtime's stable
comparator sort. -/
def insertLe (le : Entry → Entry → Bool) (x : Entry) : List Entry → List Entry
  | [] => [x]
  | y :: ys => if le x y then x :: y :: ys else y :: insertLe le x ys

/-- Model of `Array.prototype.sort(cmp)`: a stable comparison sort placing
`a` before `b` when `cmp a b ≤ 0`. -/
def sortEntries (cmp : Entry → Entry → Int) : List Entry → List Entry
  | [] => []
  | x :: xs => insertLe (fun a b => decide (cmp a b ≤ 0)) x (sortEntries cmp xs)

/-- Embeds `SuperFSDir.delete` (dir.js lines 208-224): a full recursive read,
sorted with `deleteCompare`; the loop then removes the entries in exactly
this list order (files with `removeFile`, directories with `removeDir`),
and the sorted list is returned. -/
def deleteOrder (base : List String) (kids : List FSNode) : List Entry :=
  sortEntries deleteCompare (read base kids (plainOpts ""))

/-! ## `exists` (dir.js lines 138-148) -/

/-- Embeds `SuperFSDir.exists()`: given the outcome of `fs.access` (an error or
success), the promise resolves `false` on any error and `true` otherwise;
it never rejects, so the result is always `Except.ok`. -/
def existsPromise (access : Except String Unit) : Except String Bool :=
  match access with
  | .error _ => Except.ok false
  | .ok _ => Except.ok true

/-! ## `watch` (dir.js lines 254-292) -/

/-- The internal read options of `watch` (dir.js lines 261-265). -/
def watchReadOpts : ReadOpts :=
  ⟨true, "", true, false, true, none, none⟩

/-- Embeds `SuperFSDir.watch`: enumerates the root plus every sub-directory, then
attaches an `fs.watch` listener to each enumerated entry whose full path the
ignore matcher does not match (dir.js lines 271-288), and returns `dirs`
(line 290).  The model returns (watched entries, returned entries). -/
def watch (base : List String) (kids : List FSNode) (ignore : Option (String → Bool)) :
    List Entry × List Entry :=
  let dirs := read base kids watchReadOpts
  (dirs.filter (fun fl =>
      match ignore with
      | none => true
      | some test => !test (renderPath fl.path)),
   dirs)

/-! ## `copy` (dir.js lines 164-206)

The destination filesystem state: the set of existing directories and an
association of file paths to contents.  The source tree is given as an
`FSNode` listing as for `read`; `FSTools.readFile(fl.path)` returns the
content recorded in the tree (the source is not mutated by a copy to a
disjoint destination). -/

/-- Destination filesystem state. -/
structure DestFS where
  dirs : List (List String)
  files : List (List String × String)
deriving DecidableEq, Repr

/-- File lookup in the association list. -/
def lookupFile : List (List String × String) → List String → Option String
  | [], _ => none
  | (q, c) :: rest, p => if q = p then some c else lookupFile rest p

/-- Embeds `FSTools.exists` on the destination state: the path is an existing
directory or an existing file. -/
def existsPath (st : DestFS) (p : List String) : Bool :=
  st.dirs.contains p || (lookupFile st.files p).isSome

/-- Replace-or-append update of the file association list. -/
def insertFile : List (List String × String) → List String → String → List (List String × String)
  | [], p, c => [(p, c)]
  | (q, c0) :: rest, p, c =>
      if q = p then (q, c) :: rest else (q, c0) :: insertFile rest p c

/-- Embeds `FSTools.writeFile` on the destination state (modes are not modelled). -/
def writeFileFS (st : DestFS) (p : List String) (c : String) : DestFS :=
  ⟨st.dirs, insertFile st.files p c⟩

/-- Modelled from the spec: `FSTools.createPathArray` is not under src; per
§4.1 and §6 it returns the ordered list of ancestor directories of a target,
root-to-leaf, ending with the target itself. -/
def pathChain (p : List String) : List (List String) :=
  (List.range p.length).map (fun i => p.take (i + 1))

/-- One pass of `SuperFSDir.mkdir`'s loop (dir.js lines 154-160): each
chain element that does not exist is created (`FSTools.createDir` is
modelled as recording the directory). -/
def addDirs : DestFS → List (List String) → DestFS
  | st, [] => st
  | st, d :: rest =>
      addDirs (if existsPath st d then st else ⟨st.dirs ++ [d], st.files⟩) rest

/-- Embeds `SuperFSDir.mkdir` (dir.js lines 150-162) over the destination state. -/
def mkdirFS (st : DestFS) (p : List String) : DestFS :=
  addDirs st (pathChain p)

/-- Embeds `path.join(dest, fl.relative)`: the relative string split back into
components and appended to the destination path. -/
def pathSplit (s : String) : List String :=
  if s = "" then [] else s.splitOn "/"

/-- The destination path of one copied entry (dir.js line 187). -/
def destPathOf (dest : List String) (e : Entry) : List String :=
  dest ++ pathSplit (e.relative.getD "")

/-- The body of `copy`'s loop (dir.js lines 186-201) for one entry,
threading the destination state and the log of written file paths.
Directories: `mkdir(destFile)`.  Files: the destination is written exactly
when it does not exist or `overwrite` is set. -/
def copyStep (dest : List String) (overwrite : Bool)
    (acc : DestFS × List (List String)) (e : Entry) : DestFS × List (List String) :=
  let destFile := destPathOf dest e
  if e.isDir then
    (mkdirFS acc.1 destFile, acc.2)
  else if !existsPath acc.1 destFile || overwrite then
    (writeFileFS acc.1 destFile e.content, acc.2 ++ [destFile])
  else
    (acc.1, acc.2)

/-- Embeds `SuperFSDir.copy` (dir.js lines 164-206): ensure the destination exists,
take a full recursive read of the source, and run the copy loop.  Returns
the final destination state and the list of file paths actually written. -/
def copy (base : List String) (kids : List FSNode) (dest : List String)
    (overwrite : Bool) (st : DestFS) : DestFS × List (List String) :=
  let st0 := if existsPath st dest then st else mkdirFS st dest
  (read base kids (plainOpts "")).foldl (copyStep dest overwrite) (st0, [])

/-! ## The standalone recursive `mkdir` helper (src/unnamed/part_000)

`fs.access(dir, ...)` succeeds exactly when `dir` is in the existing set.
`path.join(dir, '../')` on an absolute component path is `dropLast`; the
string `'/'` is the empty component list.  `fs.mkdir` is modelled as
recording the directory (its own error path is not exercised by the claims
about this helper). -/

/-- The recursive `mkdir` of part_000 lines 6-27: returns the callback's
error argument (`none` on the no-argument success calls) and the resulting
set of existing paths. -/
def mkdirHelper (existing : List (List String)) (dir : List String) :
    Option String × List (List String) :=
  if existing.contains dir then
    (none, existing)
  else if dir.dropLast = [] then
    (none, existing)
  else
    match mkdirHelper existing dir.dropLast with
    | (some e, st) => (some e, st)
    | (none, st) => (none, st ++ [dir])
termination_by dir.length
decreasing_by
  simp_wf
  cases dir with
  | nil => simp_all
  | cons a as => simp [List.length_dropLast]

/-! ## General lemmas about the traversal -/

theorem mem_secondPass {ig : Option (String → Bool)} {subs : List Entry} {e : Entry}
    (h : e ∈ secondPass ig subs) : e ∈ subs := by
  cases ig with
  | none => exact h
  | some test => exact (List.mem_filter.1 h).1

theorem mem_secondPass_some {test : String → Bool} {subs : List Entry} {e : Entry} :
    e ∈ secondPass (some test) subs ↔ e ∈ subs ∧ test (renderPath e.path) = false := by
  simp [secondPass, List.mem_filter]

mutual

/-- Every entry produced for one raw child lies strictly below `base`. -/
theorem processChild_path_shape (base : List String) (opts : ReadOpts) (c : FSNode) :
    ∀ e ∈ processChild base opts c, ∃ suffix, suffix ≠ [] ∧ e.path = base ++ suffix := by
  cases c with
  | file nm content =>
      intro e he
      simp only [processChild] at he
      split at he
      · simp at he
      · split at he
        · simp at he
        · simp only [List.mem_singleton] at he
          exact ⟨[nm], by simp, by rw [he]⟩
  | dir nm kids =>
      intro e he
      simp only [processChild] at he
      rcases List.mem_append.1 he with h | h
      · split at h
        · simp only [List.mem_singleton] at h
          exact ⟨[nm], by simp, by rw [h]⟩
        · simp at h
      · split at h
        · obtain ⟨s, hs, hp⟩ :=
            readChildren_path_shape (base ++ [nm]) (subOpts opts nm) kids e (mem_secondPass h)
          exact ⟨nm :: s, by simp, by rw [hp, List.append_assoc]; rfl⟩
        · simp at h

/-- Every entry of the child loop lies strictly below `base`. -/
theorem readChildren_path_shape (base : List String) (opts : ReadOpts) (kids : List FSNode) :
    ∀ e ∈ readChildren base opts kids, ∃ suffix, suffix ≠ [] ∧ e.path = base ++ suffix := by
  cases kids with
  | nil => intro e he; simp [readChildren] at he
  | cons c cs =>
      intro e he
      simp only [readChildren] at he
      rcases List.mem_append.1 he with h | h
      · split at h
        · exact processChild_path_shape base opts c e h
        · simp at h
      · exact readChildren_path_shape base opts cs e h

end

/-! ## C1: the first-pass ignore filter retains matching raw names -/

theorem ignoreFirstPass_eq_filter (test : String → Bool) (raws : List String) :
    ignoreFirstPass (some test) raws = raws.filter test := by
  simp only [ignoreFirstPass]
  exact List.filter_congr (fun x _ => by cases h : test x <;> simp [h])

theorem readChildren_eq_flatMap (base : List String) (opts : ReadOpts) (kids : List FSNode) :
    readChildren base opts kids
      = (kids.filter fun c => keepByIgnore opts.ignore c.name).flatMap (processChild base opts) := by
  induction kids with
  | nil => rfl
  | cons c cs ih =>
      simp only [readChildren]
      cases h : keepByIgnore opts.ignore c.name <;>
        simp [List.filter_cons, h, ih]

theorem keepByIgnore_some (test : String → Bool) (nm : String) :
    keepByIgnore (some test) nm = test nm := by
  cases h : test nm <;> simp [keepByIgnore, h]

theorem filter_names_comm (ig : Option (String → Bool)) (kids : List FSNode) :
    (kids.filter fun c => keepByIgnore ig c.name).map FSNode.name
      = ignoreFirstPass ig (kids.map FSNode.name) := by
  cases ig with
  | none => simp [keepByIgnore, ignoreFirstPass]
  | some test =>
      rw [show (fun c => keepByIgnore (some test) c.name) = (fun c : FSNode => test c.name)
          from funext fun c => keepByIgnore_some test c.name,
        ignoreFirstPass_eq_filter]
      induction kids with
      | nil => rfl
      | cons c cs ih => cases h : test c.name <;> simp [List.filter_cons, h, ih]

/-- C1 (confirmed): With an ignore pattern set, the first-pass test on the raw
directory-listing names (dir.js lines 77-85) retains exactly the names the
ignore matcher matches — matching names kept, non-matching dropped — and
`read`'s loop then processes exactly the surviving raw entries, before any
stat or further processing. -/
theorem read_ignore_first_pass_retains_matches :
    (∀ (test : String → Bool) (raws : List String),
        ignoreFirstPass (some test) raws = raws.filter test
        ∧ ∀ nm, nm ∈ ignoreFirstPass (some test) raws ↔ nm ∈ raws ∧ test nm = true)
    ∧ ∀ (base : List String) (opts : ReadOpts) (kids : List FSNode),
        readChildren base opts kids
          = (kids.filter fun c => keepByIgnore opts.ignore c.name).flatMap (processChild base opts)
        ∧ (kids.filter fun c => keepByIgnore opts.ignore c.name).map FSNode.name
          = ignoreFirstPass opts.ignore (kids.map FSNode.name) := by
  refine ⟨fun test raws => ⟨ignoreFirstPass_eq_filter test raws, fun nm => ?_⟩,
    fun base opts kids => ⟨readChildren_eq_flatMap base opts kids, filter_names_comm opts.ignore kids⟩⟩
  rw [ignoreFirstPass_eq_filter]
  exact List.mem_filter

/-! ## C4: delete removes all files before any directory -/

theorem deleteLe_eq (a b : Entry) : decide (deleteCompare a b ≤ 0) = !a.isDir := by
  cases h : a.isDir <;> simp [deleteCompare, h]

theorem insertLe_perm (le : Entry → Entry → Bool) (x : Entry) (l : List Entry) :
    (insertLe le x l).Perm (x :: l) := by
  induction l with
  | nil => exact List.Perm.refl _
  | cons y ys ih =>
      simp only [insertLe]
      split
      · exact List.Perm.refl _
      · exact (ih.cons y).trans (List.Perm.swap x y ys)

theorem sortEntries_perm (cmp : Entry → Entry → Int) (l : List Entry) :
    (sortEntries cmp l).Perm l := by
  induction l with
  | nil => exact List.Perm.refl _
  | cons x xs ih =>
      exact (insertLe_perm _ x (sortEntries cmp xs)).trans (ih.cons x)

theorem insertLe_of_true {le : Entry → Entry → Bool} {x : Entry}
    (hx : ∀ y, le x y = true) (l : List Entry) : insertLe le x l = x :: l := by
  cases l with
  | nil => rfl
  | cons y ys => simp [insertLe, hx y]

theorem insertLe_of_false {le : Entry → Entry → Bool} {x : Entry}
    (hx : ∀ y, le x y = false) (l : List Entry) : insertLe le x l = l ++ [x] := by
  induction l with
  | nil => rfl
  | cons y ys ih => simp [insertLe, hx y, ih]

theorem sortEntries_split (l : List Entry) :
    ∃ fls dls, sortEntries deleteCompare l = fls ++ dls
      ∧ (∀ e ∈ fls, e.isDir = false) ∧ (∀ e ∈ dls, e.isDir = true) := by
  induction l with
  | nil => exact ⟨[], [], rfl, by simp, by simp⟩
  | cons x xs ih =>
      obtain ⟨f, d, heq, hf, hd⟩ := ih
      simp only [sortEntries]
      cases hx : x.isDir with
      | false =>
          refine ⟨x :: f, d, ?_, ?_, hd⟩
          · rw [insertLe_of_true (fun y => by rw [deleteLe_eq, hx]; rfl), heq]; rfl
          · intro e he
            rcases List.mem_cons.1 he with h | h
            · rw [h]; exact hx
            · exact hf e h
      | true =>
          refine ⟨f, d ++ [x], ?_, hf, ?_⟩
          · rw [insertLe_of_false (fun y => by rw [deleteLe_eq, hx]; rfl), heq,
              List.append_assoc]
          · intro e he
            rcases List.mem_append.1 he with h | h
            · exact hd e h
            · rw [List.mem_singleton.1 h]; exact hx

/-- C4 (confirmed): `delete()` destroys exactly the entries returned by its full
recursive read, removed in an order (the sorted list of dir.js line 214, as
a stable comparator sort) in which every file entry precedes every
directory entry. -/
theorem delete_removes_files_before_dirs (base : List String) (kids : List FSNode) :
    (deleteOrder base kids).Perm (read base kids (plainOpts ""))
    ∧ ∃ fls dls, deleteOrder base kids = fls ++ dls
        ∧ (∀ e ∈ fls, e.isDir = false) ∧ (∀ e ∈ dls, e.isDir = true) :=
  ⟨sortEntries_perm _ _, sortEntries_split _⟩

/-! ## C7: exists() collapses every access failure to false -/

/-- C7 (confirmed): `exists()` resolves `true` when the access check succeeds and
`false` when it fails for any reason; the promise always resolves (the
result is always `Except.ok`), never propagating the access error. -/
theorem exists_collapses_errors (access : Except String Unit) :
    (∃ b, existsPromise access = Except.ok b)
    ∧ (access = Except.ok () → existsPromise access = Except.ok true)
    ∧ ∀ err, access = Except.error err → existsPromise access = Except.ok false := by
  cases access <;> simp [existsPromise]

/-- Concrete instances of C7: a denied access yields `ok false`, a
successful access yields `ok true`. -/
theorem exists_collapses_errors_witness :
    existsPromise (Except.error "EACCES") = Except.ok false
    ∧ existsPromise (Except.ok ()) = Except.ok true :=
  ⟨(exists_collapses_errors (Except.error "EACCES")).2.2 "EACCES" rfl,
   (exists_collapses_errors (Except.ok ())).2.1 rfl⟩

/-! ## C10: the mkdir helper reports success at the root boundary -/

/-- C10 (confirmed): When the target does not exist and its parent path normalizes
to the filesystem root (`path.join(dir, '../') === '/'`, i.e. `dropLast`
empty), the recursive mkdir helper of part_000 invokes its callback with no
error and leaves the filesystem unchanged, so the target still does not
exist after the reported success. -/
theorem mkdir_root_parent_reports_success_without_creating
    (existing : List (List String)) (dir : List String)
    (h1 : existing.contains dir = false) (h2 : dir.dropLast = []) :
    mkdirHelper existing dir = (none, existing)
    ∧ ((mkdirHelper existing dir).2).contains dir = false := by
  have heq : mkdirHelper existing dir = (none, existing) := by
    rw [mkdirHelper]
    simp [h1, h2]
  exact ⟨heq, by rw [heq]; exact h1⟩

/-- Concrete instance of C10: creating `/a` on an empty filesystem reports
success yet creates nothing. -/
theorem mkdir_root_parent_witness :
    mkdirHelper [] ["a"] = (none, []) ∧ ((mkdirHelper [] ["a"]).2).contains ["a"] = false :=
  mkdir_root_parent_reports_success_without_creating [] ["a"] (by decide) (by decide)

/-! ## Membership characterizations for one listed child -/

theorem fileEntry_mem_processChild (base : List String) (opts : ReadOpts)
    (nm content : String) :
    (⟨base ++ [nm], nm, false, some (mkRelative opts.relativePath nm), content⟩ : Entry)
      ∈ processChild base opts (FSNode.file nm content)
    ↔ opts.skipFiles = false
      ∧ fileFilterSkip opts.filter (renderPath (base ++ [nm])) = false := by
  cases hsf : opts.skipFiles with
  | true => simp [processChild, hsf]
  | false =>
      cases hff : fileFilterSkip opts.filter (renderPath (base ++ [nm])) with
      | true => simp [processChild, hsf, hff]
      | false => simp [processChild, hsf, hff]

theorem dirEntry_mem_processChild (base : List String) (opts : ReadOpts)
    (nm : String) (kids : List FSNode) :
    (⟨base ++ [nm], nm, true, some (mkRelative opts.relativePath nm), ""⟩ : Entry)
      ∈ processChild base opts (FSNode.dir nm kids)
    ↔ opts.skipDirs = false
      ∧ dirFilterOk opts.filter (mkRelative opts.relativePath nm) = true := by
  constructor
  · intro h
    simp only [processChild] at h
    rcases List.mem_append.1 h with h | h
    · cases hc : (!opts.skipDirs && dirFilterOk opts.filter (mkRelative opts.relativePath nm)) with
      | true =>
          rw [Bool.and_eq_true, Bool.not_eq_true'] at hc
          exact hc
      | false => simp [hc] at h
    · exfalso
      have hsub : (⟨base ++ [nm], nm, true, some (mkRelative opts.relativePath nm), ""⟩ : Entry)
          ∈ readChildren (base ++ [nm]) (subOpts opts nm) kids := by
        split at h
        · exact mem_secondPass h
        · simp at h
      obtain ⟨s, hs, hp⟩ := readChildren_path_shape _ _ _ _ hsub
      have hlen := congrArg List.length hp
      simp only [List.length_append, List.length_singleton] at hlen
      have hz : s.length = 0 := by omega
      exact hs (List.length_eq_zero.1 hz)
  · intro ⟨h1, h2⟩
    simp only [processChild]
    apply List.mem_append_left
    simp [h1, h2]

/-! ## C3: directory inclusion vs. traversal -/

/-- C3 counterexample: A listed sub-directory with `skipDirs` *not* set
is nevertheless dropped from the output when a filter is set and rejects
it: `read` returns an empty list although the claim, as stated, predicts
the sub-directory entry is included (excluded only when `skipDirs` is set
and the filter fails). -/
theorem dir_dropped_despite_unset_skipDirs_cex :
    (ReadOpts.skipDirs ⟨false, "", false, false, false, some (fun _ => false), none⟩ = false)
    ∧ read ["r"] [FSNode.dir "sub" []]
        ⟨false, "", false, false, false, some (fun _ => false), none⟩ = [] :=
  ⟨rfl, by decide⟩

/-- C3 amended: A listed sub-directory is included in the output iff
`skipDirs` is *not* set and (no filter is set or the filter accepts its
relative path); `addParent` entries are pushed unconditionally; and when
`recursive` is set the sub-directory is still traversed into even when
`skipDirs` is set or the filter rejects it: its sub-results (after the
second-pass ignore filter) are aggregated regardless of the inclusion
test. -/
theorem dir_inclusion_and_unconditional_traversal (base : List String) (opts : ReadOpts)
    (nm : String) (kids : List FSNode) :
    ((⟨base ++ [nm], nm, true, some (mkRelative opts.relativePath nm), ""⟩ : Entry)
        ∈ processChild base opts (FSNode.dir nm kids)
      ↔ opts.skipDirs = false
        ∧ dirFilterOk opts.filter (mkRelative opts.relativePath nm) = true)
    ∧ (opts.addParent = true → parentEntry base ∈ read base kids opts)
    ∧ (opts.recursive = true →
        processChild base opts (FSNode.dir nm kids)
          = (if !opts.skipDirs && dirFilterOk opts.filter (mkRelative opts.relativePath nm)
              then [⟨base ++ [nm], nm, true, some (mkRelative opts.relativePath nm), ""⟩]
            else [])
            ++ secondPass opts.ignore (readChildren (base ++ [nm]) (subOpts opts nm) kids)) :=
  ⟨dirEntry_mem_processChild base opts nm kids,
   fun h => by simp [read, h],
   fun h => by simp [processChild, h]⟩

/-- Concrete instance of C3 (amended): with `skipDirs` set, a rejecting
filter, `recursive` and `addParent` on, the sub-directory entry is not
included, the parent is, and the sub-directory's children are still
aggregated. -/
theorem dir_inclusion_and_unconditional_traversal_witness :
    ((⟨["r", "sub"], "sub", true, some "sub", ""⟩ : Entry)
        ∉ processChild ["r"] ⟨true, "", false, true, true, some (fun _ => false), none⟩
            (FSNode.dir "sub" [FSNode.file "a" "x"]))
    ∧ parentEntry ["r"] ∈ read ["r"] [FSNode.dir "sub" [FSNode.file "a" "x"]]
        ⟨true, "", false, true, true, some (fun _ => false), none⟩
    ∧ processChild ["r"] ⟨true, "", false, true, true, some (fun _ => false), none⟩
          (FSNode.dir "sub" [FSNode.file "a" "x"])
        = (if !(true : Bool) && dirFilterOk (some (fun _ => false)) "sub"
            then [⟨["r", "sub"], "sub", true, some "sub", ""⟩] else [])
          ++ secondPass none
              (readChildren ["r", "sub"]
                (subOpts ⟨true, "", false, true, true, some (fun _ => false), none⟩ "sub")
                [FSNode.file "a" "x"]) := by
  have h := dir_inclusion_and_unconditional_traversal ["r"]
    ⟨true, "", false, true, true, some (fun _ => false), none⟩ "sub" [FSNode.file "a" "x"]
  refine ⟨?_, h.2.1 rfl, ?_⟩
  · simpa [mkRelative] using h.1
  · simpa [mkRelative] using h.2.2 rfl

/-! ## C6: which path the filter matcher receives -/

/-- C6 counterexample: A filter that accepts the file's relative path
(`"a"`) but not its full path (`"/r/a"`): the claim, as stated, predicts the
file is included, but `read` drops it because dir.js line 120 tests the
full joined path for files. -/
theorem file_filter_full_path_cex :
    ((fun s => s == "a") (mkRelative "" "a") = true)
    ∧ read ["r"] [FSNode.file "a" "x"]
        ⟨false, "", false, false, false, some (fun s => s == "a"), none⟩ = [] :=
  ⟨by decide, by decide⟩

/-- C6 amended: The filter matcher's inclusion test is applied against
the candidate's `relative` path for *directory* candidates (dir.js line
96), but against the candidate's full joined absolute path for *file*
candidates (dir.js line 120). -/
theorem filter_relative_for_dirs_full_path_for_files (base : List String) (opts : ReadOpts)
    (nm content : String) (kids : List FSNode) :
    ((⟨base ++ [nm], nm, false, some (mkRelative opts.relativePath nm), content⟩ : Entry)
        ∈ processChild base opts (FSNode.file nm content)
      ↔ opts.skipFiles = false
        ∧ fileFilterSkip opts.filter (renderPath (base ++ [nm])) = false)
    ∧ ((⟨base ++ [nm], nm, true, some (mkRelative opts.relativePath nm), ""⟩ : Entry)
        ∈ processChild base opts (FSNode.dir nm kids)
      ↔ opts.skipDirs = false
        ∧ dirFilterOk opts.filter (mkRelative opts.relativePath nm) = true) :=
  ⟨fileEntry_mem_processChild base opts nm content,
   dirEntry_mem_processChild base opts nm kids⟩

/-! ## C8: watched directories vs. returned directories -/

mutual

theorem processChild_all_dirs (base : List String) (opts : ReadOpts) (c : FSNode)
    (hsf : opts.skipFiles = true) : ∀ e ∈ processChild base opts c, e.isDir = true := by
  cases c with
  | file nm content => intro e he; simp [processChild, hsf] at he
  | dir nm kids =>
      intro e he
      simp only [processChild] at he
      rcases List.mem_append.1 he with h | h
      · split at h
        · rw [List.mem_singleton.1 h]
        · simp at h
      · split at h
        · exact readChildren_all_dirs (base ++ [nm]) (subOpts opts nm) kids hsf e
            (mem_secondPass h)
        · simp at h

theorem readChildren_all_dirs (base : List String) (opts : ReadOpts) (kids : List FSNode)
    (hsf : opts.skipFiles = true) : ∀ e ∈ readChildren base opts kids, e.isDir = true := by
  cases kids with
  | nil => intro e he; simp [readChildren] at he
  | cons c cs =>
      intro e he
      simp only [readChildren] at he
      rcases List.mem_append.1 he with h | h
      · split at h
        · exact processChild_all_dirs base opts c hsf e h
        · simp at h
      · exact readChildren_all_dirs base opts cs hsf e h

end

/-- C8 counterexample: With an ignore pattern matching the sub-directory's
full path, `watch` attaches a listener only to the root, yet returns both
enumerated directory entries — the returned list is not the list of watched
directories the claim promises. -/
theorem watch_returns_ignored_dirs_cex :
    (watch ["r"] [FSNode.dir "sub" []] (some (fun s => s == "/r/sub"))).1
      = [⟨["r"], "r", true, none, ""⟩]
    ∧ (watch ["r"] [FSNode.dir "sub" []] (some (fun s => s == "/r/sub"))).2
      = [⟨["r"], "r", true, none, ""⟩, ⟨["r", "sub"], "sub", true, some "sub", ""⟩]
    ∧ (watch ["r"] [FSNode.dir "sub" []] (some (fun s => s == "/r/sub"))).2
      ≠ (watch ["r"] [FSNode.dir "sub" []] (some (fun s => s == "/r/sub"))).1 :=
  ⟨by decide, by decide, by decide⟩

/-- C8 amended: `watch` attaches a native change listener to exactly the
enumerated directory entries (root plus every sub-directory; every
enumerated entry is a directory) that survive the ignore test against their
full paths — but the list it returns is the full enumeration, including the
entries the ignore test excluded from watching. -/
theorem watch_watched_vs_returned (base : List String) (kids : List FSNode)
    (ig : String → Bool) :
    (watch base kids (some ig)).1
      = (read base kids watchReadOpts).filter (fun fl => !ig (renderPath fl.path))
    ∧ (watch base kids (some ig)).2 = read base kids watchReadOpts
    ∧ ∀ e ∈ (watch base kids (some ig)).2, e.isDir = true := by
  refine ⟨rfl, rfl, ?_⟩
  intro e he
  simp only [watch, read, watchReadOpts] at he
  rcases List.mem_append.1 he with h | h
  · have h' : e = parentEntry base := by simpa using h
    rw [h']
    rfl
  · exact readChildren_all_dirs base watchReadOpts kids rfl e h

/-! ## C9: the second-pass ignore test excludes matching full paths -/

theorem readChildren_deep_entries_unmatched (base : List String) (opts : ReadOpts)
    (ig : String → Bool) (kids : List FSNode) (e : Entry)
    (hig : opts.ignore = some ig) (he : e ∈ readChildren base opts kids)
    (hlen : base.length + 2 ≤ e.path.length) : ig (renderPath e.path) = false := by
  induction kids with
  | nil => simp [readChildren] at he
  | cons c cs ih =>
      simp only [readChildren] at he
      rcases List.mem_append.1 he with h | h
      · have hpc : e ∈ processChild base opts c := by
          split at h
          · exact h
          · simp at h
        cases c with
        | file nm content =>
            exfalso
            simp only [processChild] at hpc
            split at hpc
            · simp at hpc
            · split at hpc
              · simp at hpc
              · rw [List.mem_singleton.1 hpc] at hlen
                simp only [List.length_append, List.length_singleton] at hlen
                omega
        | dir nm kids' =>
            simp only [processChild] at hpc
            rcases List.mem_append.1 hpc with h2 | h2
            · exfalso
              split at h2
              · rw [List.mem_singleton.1 h2] at hlen
                simp only [List.length_append, List.length_singleton] at hlen
                omega
              · simp at h2
            · split at h2
              · rw [hig] at h2
                exact (mem_secondPass_some.1 h2).2
              · simp at h2
      · exact ih h

/-- C9 (confirmed): In a recursive read with an ignore matcher set, every entry of
the aggregated output that came from a recursive sub-call — its path lying
at least two levels below the read root — passed the second-pass test of
dir.js lines 107-113: the ignore matcher does *not* match its full path.
Equivalently, a sub-call entry whose full path the matcher matches is
excluded — the opposite polarity to the first-pass test on raw names, which
retains matches (see the C1 theorem). -/
theorem read_second_pass_excludes_matching_paths (base : List String) (opts : ReadOpts)
    (ig : String → Bool) (kids : List FSNode) (e : Entry)
    (hig : opts.ignore = some ig) (he : e ∈ read base kids opts)
    (hlen : base.length + 2 ≤ e.path.length) : ig (renderPath e.path) = false := by
  simp only [read] at he
  rcases List.mem_append.1 he with h | h
  · exfalso
    split at h
    · rw [List.mem_singleton.1 h] at hlen
      simp only [parentEntry] at hlen
      omega
    · simp at h
  · exact readChildren_deep_entries_unmatched base opts ig kids e hig h hlen

/-- Concrete instance of C9: the file `/r/s/a`, two levels below the root,
appears in the recursive read (its bare name matched the first pass) and
the ignore matcher does not match its full path. -/
theorem read_second_pass_excludes_witness :
    (fun s => s == "s" || s == "a") (renderPath ["r", "s", "a"]) = false :=
  read_second_pass_excludes_matching_paths ["r"]
    ⟨true, "", false, false, false, none, some (fun s => s == "s" || s == "a")⟩
    (fun s => s == "s" || s == "a") [FSNode.dir "s" [FSNode.file "a" ""]]
    ⟨["r", "s", "a"], "a", false, some "s/a", ""⟩ rfl (by decide) (by decide)

/-! ## C2: the full recursive read lists the whole tree exactly once -/

theorem subOpts_plainOpts (rp nm : String) :
    subOpts (plainOpts rp) nm = plainOpts (mkRelative rp nm) := rfl

theorem readChildren_plain_key (base : List String) (rp : String) (kids : List FSNode) :
    (readChildren base (plainOpts rp) kids).map entryKey = allNodes base kids := by
  cases kids with
  | nil => simp [readChildren, allNodes]
  | cons c cs =>
      cases c with
      | file nm ct =>
          have ih := readChildren_plain_key base rp cs
          simp only [plainOpts] at ih ⊢
          simp [readChildren, processChild, keepByIgnore, fileFilterSkip,
            allNodes, entryKey, ih]
      | dir nm kids' =>
          have ih1 := readChildren_plain_key (base ++ [nm]) (mkRelative rp nm) kids'
          have ih2 := readChildren_plain_key base rp cs
          simp only [plainOpts] at ih1 ih2 ⊢
          simp [readChildren, processChild, subOpts, keepByIgnore, dirFilterOk,
            secondPass, allNodes, entryKey, ih1, ih2]

theorem readChildren_plain_relative (base : List String) (rp : String) (kids : List FSNode)
    (hwf : childrenWf kids = true) :
    ∀ e ∈ readChildren base (plainOpts rp) kids,
      ∃ suffix, suffix ≠ [] ∧ (∀ c ∈ suffix, c ≠ "") ∧ e.path = base ++ suffix
        ∧ e.relative = some (relJoin rp suffix) := by
  cases kids with
  | nil => intro e he; simp [readChildren] at he
  | cons c cs =>
      simp only [childrenWf, Bool.and_eq_true] at hwf
      obtain ⟨hc, hcs⟩ := hwf
      intro e he
      simp only [readChildren] at he
      rcases List.mem_append.1 he with h | h
      · have hpc : e ∈ processChild base (plainOpts rp) c := by
          split at h
          · exact h
          · simp at h
        cases c with
        | file nm ct =>
            simp only [nodeWf, Bool.not_eq_true', beq_eq_false_iff_ne] at hc
            have he' : e = ⟨base ++ [nm], nm, false, some (mkRelative rp nm), ct⟩ := by
              simpa [processChild, plainOpts, fileFilterSkip] using hpc
            refine ⟨[nm], by simp, by simpa using hc, by rw [he'], by rw [he']; rfl⟩
        | dir nm kids' =>
            simp only [nodeWf, Bool.and_eq_true, Bool.not_eq_true',
              beq_eq_false_iff_ne] at hc
            obtain ⟨⟨hnm, hwf'⟩, _⟩ := hc
            simp only [processChild] at hpc
            rcases List.mem_append.1 hpc with h2 | h2
            · have he' : e = ⟨base ++ [nm], nm, true, some (mkRelative rp nm), ""⟩ := by
                simpa [plainOpts, dirFilterOk] using h2
              refine ⟨[nm], by simp, by simpa using hnm, by rw [he'], by rw [he']; rfl⟩
            · have h3 : e ∈ readChildren (base ++ [nm]) (plainOpts (mkRelative rp nm)) kids' := by
                rw [← subOpts_plainOpts]
                split at h2
                · exact mem_secondPass h2
                · simp at h2
              obtain ⟨s, hne, hsne, hp, hrel⟩ :=
                readChildren_plain_relative (base ++ [nm]) (mkRelative rp nm) kids' hwf' e h3
              refine ⟨nm :: s, by simp, ?_, ?_, ?_⟩
              · intro x hx
                rcases List.mem_cons.1 hx with h4 | h4
                · rw [h4]; exact hnm
                · exact hsne x h4
              · rw [hp, List.append_assoc]; rfl
              · exact hrel
      · exact readChildren_plain_relative base rp cs hcs e h

theorem allNodes_shape (base : List String) (kids : List FSNode) :
    ∀ p ∈ (allNodes base kids).map Prod.fst,
      ∃ nm rest, p = base ++ nm :: rest ∧ nm ∈ kids.map FSNode.name := by
  cases kids with
  | nil => intro p hp; simp [allNodes] at hp
  | cons c cs =>
      intro p hp
      cases c with
      | file nm ct =>
          simp only [allNodes, List.map_cons, List.mem_cons] at hp
          rcases hp with h | h
          · exact ⟨nm, [], by rw [h], by simp [FSNode.name]⟩
          · obtain ⟨nm', rest, hq, hm⟩ := allNodes_shape base cs p (by simpa using h)
            exact ⟨nm', rest, hq, by simp [hm]⟩
      | dir nm kids' =>
          simp only [allNodes, List.map_cons, List.map_append, List.mem_cons,
            List.mem_append] at hp
          rcases hp with h | h | h
          · exact ⟨nm, [], by rw [h], by simp [FSNode.name]⟩
          · obtain ⟨nm', rest, hq, _⟩ := allNodes_shape (base ++ [nm]) kids' p (by simpa using h)
            refine ⟨nm, nm' :: rest, ?_, by simp [FSNode.name]⟩
            rw [hq, List.append_assoc]; rfl
          · obtain ⟨nm', rest, hq, hm⟩ := allNodes_shape base cs p (by simpa using h)
            exact ⟨nm', rest, hq, by simp [hm]⟩

theorem contains_false_not_mem {l : List String} {a : String}
    (h : l.contains a = false) : a ∉ l := by
  simpa using h

theorem allNodes_nodup (base : List String) (kids : List FSNode)
    (h1 : childrenWf kids = true) (h2 : namesDistinct (kids.map FSNode.name) = true) :
    ((allNodes base kids).map Prod.fst).Nodup := by
  cases kids with
  | nil => simp [allNodes]
  | cons c cs =>
      simp only [childrenWf, Bool.and_eq_true] at h1
      obtain ⟨hcwf, hcs⟩ := h1
      simp only [List.map_cons, namesDistinct, Bool.and_eq_true, Bool.not_eq_true'] at h2
      obtain ⟨hnc, hnd⟩ := h2
      have hnm : c.name ∉ cs.map FSNode.name := contains_false_not_mem hnc
      cases c with
      | file nm ct =>
          simp only [allNodes, List.map_cons, List.nodup_cons]
          refine ⟨?_, allNodes_nodup base cs hcs hnd⟩
          intro hmem
          obtain ⟨nm', rest, hq, hm⟩ := allNodes_shape base cs _ hmem
          have := List.append_cancel_left hq
          rw [List.cons.injEq] at this
          exact hnm (by simpa [FSNode.name, ← this.1] using hm)
      | dir nm kids' =>
          simp only [nodeWf, Bool.and_eq_true, Bool.not_eq_true', beq_eq_false_iff_ne] at hcwf
          obtain ⟨⟨_, hwf'⟩, hnd'⟩ := hcwf
          simp only [allNodes, List.map_cons, List.map_append, List.nodup_cons,
            List.nodup_append]
          refine ⟨?_, allNodes_nodup (base ++ [nm]) kids' hwf' hnd',
            allNodes_nodup base cs hcs hnd, ?_⟩
          · intro hmem
            rcases List.mem_append.1 hmem with h | h
            · obtain ⟨nm', rest, hq, _⟩ := allNodes_shape (base ++ [nm]) kids' _ h
              have : ([] : List String) = nm' :: rest := by
                have hq' : base ++ [nm] ++ [] = base ++ [nm] ++ nm' :: rest := by
                  rw [List.append_nil]; exact hq
                exact List.append_cancel_left hq'
              simp at this
            · obtain ⟨nm', rest, hq, hm⟩ := allNodes_shape base cs _ h
              have := List.append_cancel_left hq
              rw [List.cons.injEq] at this
              exact hnm (by simpa [FSNode.name, ← this.1] using hm)
          · intro p hp hp'
            obtain ⟨q, r, hq1, _⟩ := allNodes_shape (base ++ [nm]) kids' p hp
            obtain ⟨nm', rest, hq2, hm⟩ := allNodes_shape base cs p hp'
            have heq : base ++ nm :: q :: r = base ++ nm' :: rest := by
              rw [← hq2, hq1, List.append_assoc]; rfl
            have := List.append_cancel_left heq
            rw [List.cons.injEq] at this
            exact hnm (by simpa [FSNode.name, ← this.1] using hm)

theorem relJoin_eq_joinSlash (comps : List String) :
    ∀ acc : String, acc ≠ "" → relJoin acc comps = joinSlash (acc :: comps) := by
  induction comps with
  | nil => intro acc _; rfl
  | cons c cs ih =>
      intro acc h
      have h1 : mkRelative acc c = acc ++ "/" ++ c := by simp [mkRelative, h]
      have h2 : acc ++ "/" ++ c ≠ "" := by
        intro hx
        have hx' := congrArg String.length hx
        rw [String.length_append, String.length_append] at hx'
        have hs : ("/" : String).length = 1 := rfl
        have hz : ("" : String).length = 0 := rfl
        rw [hs, hz] at hx'
        omega
      calc relJoin acc (c :: cs) = relJoin (mkRelative acc c) cs := rfl
        _ = joinSlash ((acc ++ "/" ++ c) :: cs) := by rw [h1]; exact ih _ h2
        _ = joinSlash (acc :: c :: cs) := by
            cases cs with
            | nil => rfl
            | cons d ds => simp [joinSlash, String.append_assoc]

/-- C2 (confirmed): On a well-formed tree (nonempty names, distinct siblings), a
full recursive `read` with no filter, ignore, or skip options returns every
file and every directory of the tree exactly once, in depth-first listing
order, and each returned entry's `relative` field equals its path from the
traversal root with components joined by `/`. -/
theorem read_recursive_complete_exactly_once (base : List String) (kids : List FSNode)
    (h1 : childrenWf kids = true) (h2 : namesDistinct (kids.map FSNode.name) = true) :
    (read base kids (plainOpts "")).map entryKey = allNodes base kids
    ∧ ((read base kids (plainOpts "")).map Entry.path).Nodup
    ∧ ∀ e ∈ read base kids (plainOpts ""),
        e.relative = some (joinSlash (e.path.drop base.length)) := by
  have hread : read base kids (plainOpts "") = readChildren base (plainOpts "") kids := rfl
  refine ⟨?_, ?_, ?_⟩
  · rw [hread]; exact readChildren_plain_key base "" kids
  · rw [hread]
    have hm : (readChildren base (plainOpts "") kids).map Entry.path
        = ((readChildren base (plainOpts "") kids).map entryKey).map Prod.fst := by
      simp [List.map_map, entryKey, Function.comp]
    rw [hm, readChildren_plain_key base "" kids]
    exact allNodes_nodup base kids h1 h2
  · intro e he
    rw [hread] at he
    obtain ⟨s, hne, hsne, hp, hrel⟩ := readChildren_plain_relative base "" kids h1 e he
    rw [hrel, hp, List.drop_left]
    cases s with
    | nil => exact absurd rfl hne
    | cons c cs' =>
        have hc : c ≠ "" := hsne c (by simp)
        have hz : relJoin "" (c :: cs') = relJoin c cs' := rfl
        rw [hz, relJoin_eq_joinSlash cs' c hc]

/-- Concrete instance of C2 on the tree `r/{s/{a}, b}`. -/
theorem read_recursive_complete_witness :
    (read ["r"] [FSNode.dir "s" [FSNode.file "a" "ha"], FSNode.file "b" "hb"]
        (plainOpts "")).map entryKey
      = allNodes ["r"] [FSNode.dir "s" [FSNode.file "a" "ha"], FSNode.file "b" "hb"]
    ∧ ((read ["r"] [FSNode.dir "s" [FSNode.file "a" "ha"], FSNode.file "b" "hb"]
        (plainOpts "")).map Entry.path).Nodup
    ∧ ∀ e ∈ read ["r"] [FSNode.dir "s" [FSNode.file "a" "ha"], FSNode.file "b" "hb"]
        (plainOpts ""),
        e.relative = some (joinSlash (e.path.drop (["r"] : List String).length)) :=
  read_recursive_complete_exactly_once ["r"]
    [FSNode.dir "s" [FSNode.file "a" "ha"], FSNode.file "b" "hb"] (by decide) (by decide)

/-! ## C5: copy with overwrite off is idempotent -/

/-- The destination paths one copy-loop iteration guarantees to exist
afterwards: the whole mkdir chain for a directory entry, the written (or
already present) destination file for a file entry. -/
def entryPaths (dest : List String) (e : Entry) : List (List String) :=
  if e.isDir then pathChain (destPathOf dest e) else [destPathOf dest e]

theorem lookupFile_insertFile (fs : List (List String × String)) (p r : List String)
    (c : String) :
    lookupFile (insertFile fs p c) r = if r = p then some c else lookupFile fs r := by
  induction fs with
  | nil =>
      by_cases h : r = p
      · simp [insertFile, lookupFile, h]
      · have h' : ¬ p = r := fun hh => h hh.symm
        simp [insertFile, lookupFile, h, h']
  | cons qc rest ih =>
      obtain ⟨q, c0⟩ := qc
      by_cases hq : q = p <;> by_cases hr : r = p <;> by_cases hqr : q = r <;>
        simp_all [insertFile, lookupFile]

theorem existsPath_write_mono {st : DestFS} {r : List String} (p : List String) (c : String)
    (h : existsPath st r = true) : existsPath (writeFileFS st p c) r = true := by
  simp only [existsPath, writeFileFS, lookupFile_insertFile] at h ⊢
  rw [Bool.or_eq_true] at h ⊢
  rcases h with h1 | h1
  · exact Or.inl h1
  · right
    split
    · rfl
    · exact h1

theorem existsPath_write_self (st : DestFS) (p : List String) (c : String) :
    existsPath (writeFileFS st p c) p = true := by
  simp [existsPath, writeFileFS, lookupFile_insertFile]

theorem existsPath_addDir_mono {st : DestFS} {r : List String} (d : List String)
    (h : existsPath st r = true) :
    existsPath (⟨st.dirs ++ [d], st.files⟩ : DestFS) r = true := by
  simp only [existsPath] at h ⊢
  rw [Bool.or_eq_true] at h ⊢
  rcases h with h1 | h1
  · left
    have hm : r ∈ st.dirs := by simpa using h1
    simpa using List.mem_append_left [d] hm
  · exact Or.inr h1

theorem existsPath_addDirs_mono {st : DestFS} {r : List String} (ds : List (List String))
    (h : existsPath st r = true) : existsPath (addDirs st ds) r = true := by
  induction ds generalizing st with
  | nil => exact h
  | cons d rest ih =>
      simp only [addDirs]
      apply ih
      split
      · exact h
      · exact existsPath_addDir_mono d h

theorem addDirs_exists (st : DestFS) (ds : List (List String)) :
    ∀ d ∈ ds, existsPath (addDirs st ds) d = true := by
  induction ds generalizing st with
  | nil => intro d hd; simp at hd
  | cons d rest ih =>
      intro x hx
      rcases List.mem_cons.1 hx with h | h
      · subst h
        simp only [addDirs]
        apply existsPath_addDirs_mono
        split
        · assumption
        · simp [existsPath]
      · simp only [addDirs]
        exact ih _ x h

theorem copyStep_exists_mono {r : List String} (dest : List String) (ow : Bool)
    (acc : DestFS × List (List String)) (e : Entry)
    (h : existsPath acc.1 r = true) : existsPath (copyStep dest ow acc e).1 r = true := by
  simp only [copyStep]
  split
  · exact existsPath_addDirs_mono _ h
  · split
    · exact existsPath_write_mono _ _ h
    · exact h

theorem copyFold_exists_mono {r : List String} (dest : List String) (ow : Bool)
    (es : List Entry) (acc : DestFS × List (List String))
    (h : existsPath acc.1 r = true) :
    existsPath ((es.foldl (copyStep dest ow) acc).1) r = true := by
  induction es generalizing acc with
  | nil => exact h
  | cons f rest ih => exact ih _ (copyStep_exists_mono dest ow acc f h)

theorem copyStep_establishes (dest : List String) (ow : Bool)
    (acc : DestFS × List (List String)) (e : Entry) :
    ∀ p ∈ entryPaths dest e, existsPath (copyStep dest ow acc e).1 p = true := by
  intro p hp
  cases hd : e.isDir with
  | true =>
      simp only [entryPaths, hd, if_true] at hp
      have hstep : (copyStep dest ow acc e).1 = mkdirFS acc.1 (destPathOf dest e) := by
        simp [copyStep, hd]
      rw [hstep]
      exact addDirs_exists _ _ p hp
  | false =>
      have hp' : p = destPathOf dest e := by simpa [entryPaths, hd] using hp
      subst hp'
      cases hex : existsPath acc.1 (destPathOf dest e) with
      | true => exact copyStep_exists_mono dest ow acc e hex
      | false =>
          have hstep : (copyStep dest ow acc e).1
              = writeFileFS acc.1 (destPathOf dest e) e.content := by
            simp [copyStep, hd, hex]
          rw [hstep]
          exact existsPath_write_self _ _ _

theorem copyFold_establishes (dest : List String) (ow : Bool) (es : List Entry)
    (acc : DestFS × List (List String)) :
    ∀ e ∈ es, ∀ p ∈ entryPaths dest e,
      existsPath ((es.foldl (copyStep dest ow) acc).1) p = true := by
  induction es generalizing acc with
  | nil => intro e he; simp at he
  | cons f rest ih =>
      intro e he p hp
      rcases List.mem_cons.1 he with h | h
      · subst h
        exact copyFold_exists_mono dest ow rest _ (copyStep_establishes dest ow acc e p hp)
      · exact ih _ e h p hp

theorem addDirs_noop (st : DestFS) (ds : List (List String))
    (h : ∀ d ∈ ds, existsPath st d = true) : addDirs st ds = st := by
  induction ds with
  | nil => rfl
  | cons d rest ih =>
      simp only [addDirs, if_pos (h d (by simp))]
      exact ih (fun x hx => h x (by simp [hx]))

theorem copyStep_noop (dest : List String) (acc : DestFS × List (List String)) (e : Entry)
    (h : ∀ p ∈ entryPaths dest e, existsPath acc.1 p = true) :
    copyStep dest false acc e = acc := by
  cases hd : e.isDir with
  | true =>
      have hall : ∀ d ∈ pathChain (destPathOf dest e), existsPath acc.1 d = true := by
        intro d hdm
        exact h d (by simp [entryPaths, hd, hdm])
      simp [copyStep, hd, mkdirFS, addDirs_noop acc.1 _ hall]
  | false =>
      have hex : existsPath acc.1 (destPathOf dest e) = true :=
        h _ (by simp [entryPaths, hd])
      simp [copyStep, hd, hex]

theorem copyFold_noop (dest : List String) (es : List Entry)
    (acc : DestFS × List (List String))
    (h : ∀ e ∈ es, ∀ p ∈ entryPaths dest e, existsPath acc.1 p = true) :
    es.foldl (copyStep dest false) acc = acc := by
  induction es with
  | nil => rfl
  | cons f rest ih =>
      simp only [List.foldl_cons, copyStep_noop dest acc f (h f (by simp))]
      exact ih (fun e he p hp => h e (by simp [he]) p hp)

theorem mem_pathChain_self (p : List String) (h : p ≠ []) : p ∈ pathChain p := by
  have hl : 0 < p.length := List.length_pos.2 h
  simp only [pathChain, List.mem_map]
  refine ⟨p.length - 1, ?_, ?_⟩
  · simp [List.mem_range]; omega
  · rw [Nat.sub_add_cancel hl, List.take_length]

/-- C5 (confirmed): `copy(dest, {overwrite: false})` applied twice in succession is
idempotent: the second run writes no destination file at all (its write log
is empty, so in particular none of the files the first run produced), and
the destination state — directories and every file's content — after the
second run is identical to the state after the first run. -/
theorem copy_overwrite_false_idempotent (base : List String) (kids : List FSNode)
    (dest : List String) (st : DestFS) :
    (copy base kids dest false (copy base kids dest false st).1).1
      = (copy base kids dest false st).1
    ∧ (copy base kids dest false (copy base kids dest false st).1).2 = [] := by
  have hest : ∀ e ∈ read base kids (plainOpts ""), ∀ p ∈ entryPaths dest e,
      existsPath (copy base kids dest false st).1 p = true := fun e he p hp =>
    copyFold_establishes dest false (read base kids (plainOpts ""))
      ((if existsPath st dest then st else mkdirFS st dest), []) e he p hp
  have hd : (if existsPath (copy base kids dest false st).1 dest
        then (copy base kids dest false st).1
        else mkdirFS (copy base kids dest false st).1 dest)
      = (copy base kids dest false st).1 := by
    by_cases hne : dest = []
    · subst hne
      split
      · rfl
      · rfl
    · have hex : existsPath (copy base kids dest false st).1 dest = true := by
        show existsPath (((read base kids (plainOpts "")).foldl (copyStep dest false)
            ((if existsPath st dest then st else mkdirFS st dest), [])).1) dest = true
        apply copyFold_exists_mono
        show existsPath (if existsPath st dest then st else mkdirFS st dest) dest = true
        split
        · assumption
        · exact addDirs_exists st (pathChain dest) dest (mem_pathChain_self dest hne)
      simp [hex]
  have key : copy base kids dest false (copy base kids dest false st).1
      = ((copy base kids dest false st).1, []) := by
    calc copy base kids dest false (copy base kids dest false st).1
        = (read base kids (plainOpts "")).foldl (copyStep dest false)
            ((copy base kids dest false st).1, []) := by
          show (read base kids (plainOpts "")).foldl (copyStep dest false)
              ((if existsPath (copy base kids dest false st).1 dest
                then (copy base kids dest false st).1
                else mkdirFS (copy base kids dest false st).1 dest), [])
            = (read base kids (plainOpts "")).foldl (copyStep dest false)
                ((copy base kids dest false st).1, [])
          rw [hd]
      _ = ((copy base kids dest false st).1, []) :=
          copyFold_noop dest (read base kids (plainOpts "")) _ hest
  exact ⟨by rw [key], by rw [key]⟩

end SuperFS
